import Mathlib

/-!
Shallow embedding of the elevator control core of `src/main.c` (MSP430
elevator controller).  The state variables of the C program are the five
globals `state`, `current_floor`, `called_floor`, `destination`,
`dest_direction`, plus the motor command last written to the H-bridge by
`stop_motor` / `go_up` / `go_down` (modelled as an abstract intent; duty
cycles and port bits are motor-driver concerns).  The 7-segment display
output is a pure output to a collaborator and carries no control state, so
it is not part of the machine record.

States are the C program's characters:
  'i' initializing, 'x' idle, '^' moving up to call, 'v' moving down to
  call, 'w' awaiting selection, 'u' moving up to destination, 'd' moving
  down to destination.

Events per tick are the decoded priority-encoder addresses exactly as the
C handlers receive them: a limit-switch address (floor = addr + 1), an
in-elevator button address (floor = addr + 1), and a tower-button address
(one of the F1_UP .. F4_DN codes 7, 6, 5, 4, 3, 2).
-/

/-- Motor command in effect on the H-bridge: set by `go_up`, `go_down`,
`stop_motor`. -/
inductive Intent : Type where
  | up : Intent
  | down : Intent
  | hold : Intent
deriving DecidableEq, Repr

/-- The five state variables of `main.c` plus the last motor command. -/
structure Machine : Type where
  state : Char
  current_floor : Nat
  called_floor : Nat
  destination : Nat
  dest_direction : Char
  motor : Intent
deriving DecidableEq, Repr

/-- C `stop_motor`: sets the H-bridge to stop mode. -/
def stop_motor (m : Machine) : Machine :=
  { m with motor := Intent.hold }

/-- C `go_up`: commands the motor upward. -/
def go_up (m : Machine) : Machine :=
  { m with motor := Intent.up }

/-- C `go_down`: commands the motor downward. -/
def go_down (m : Machine) : Machine :=
  { m with motor := Intent.down }

/-- Tower-button address codes from `main.c` (`#define F1_UP 0x7` ...). -/
def F1_UP : Nat := 7
def F2_DN : Nat := 6
def F2_UP : Nat := 5
def F3_DN : Nat := 4
def F3_UP : Nat := 3
def F4_DN : Nat := 2

/-- C `handle_tower_button(addr)`: a call is honored only in state 'x';
each button case sets `called_floor` and `dest_direction` and then moves
toward the called floor (or waits if already there).  Faithful rendering
of the `switch (addr)` with its per-case `if (state == 'x')` guards. -/
def handle_tower_button (m : Machine) (addr : Nat) : Machine :=
  if addr = F1_UP then
    if m.state = 'x' then
      let m := { m with called_floor := 1, dest_direction := 'u' }
      if m.current_floor ≠ 1 then { (go_down m) with state := 'v' }
      else { m with state := 'w' }
    else m
  else if addr = F2_DN then
    if m.state = 'x' then
      let m := { m with called_floor := 2, dest_direction := 'd' }
      if m.current_floor ≠ 2 then
        if m.current_floor > 2 then { (go_down m) with state := 'v' }
        else { (go_up m) with state := '^' }
      else { m with state := 'w' }
    else m
  else if addr = F2_UP then
    if m.state = 'x' then
      let m := { m with called_floor := 2, dest_direction := 'u' }
      if m.current_floor ≠ 2 then
        if m.current_floor > 2 then { (go_down m) with state := 'v' }
        else { (go_up m) with state := '^' }
      else { m with state := 'w' }
    else m
  else if addr = F3_DN then
    if m.state = 'x' then
      let m := { m with called_floor := 3, dest_direction := 'd' }
      if m.current_floor ≠ 3 then
        if m.current_floor > 3 then { (go_down m) with state := 'v' }
        else { (go_up m) with state := '^' }
      else { m with state := 'w' }
    else m
  else if addr = F3_UP then
    if m.state = 'x' then
      let m := { m with called_floor := 3, dest_direction := 'u' }
      if m.current_floor ≠ 3 then
        if m.current_floor > 3 then { (go_down m) with state := 'v' }
        else { (go_up m) with state := '^' }
      else { m with state := 'w' }
    else m
  else if addr = F4_DN then
    if m.state = 'x' then
      let m := { m with called_floor := 4, dest_direction := 'd' }
      if m.current_floor ≠ 4 then { (go_up m) with state := '^' }
      else { m with state := 'w' }
    else m
  else m

/-- C `handle_elev_button(addr)`: note the C assigns
`destination = addr + 1` before the `state == 'w'` check, so the stored
destination is overwritten in every state. -/
def handle_elev_button (m : Machine) (addr : Nat) : Machine :=
  let m := { m with destination := addr + 1 }
  if m.state = 'w' then
    if m.destination = m.current_floor then { m with state := 'w' }
    else if m.dest_direction = 'u' ∧ m.destination > m.current_floor then
      { m with state := 'u' }
    else if m.dest_direction = 'd' ∧ m.destination < m.current_floor then
      { m with state := 'd' }
    else m
  else m

/-- C `handle_limit_switch(addr)`: unconditionally records the sensed
floor (`current_floor = addr + 1`) and stops the motor at the structural
limits (floors 1 and 4).  The `update_display` call drives the 7-segment
decoder only and touches no state variable. -/
def handle_limit_switch (m : Machine) (addr : Nat) : Machine :=
  let m := { m with current_floor := addr + 1 }
  if m.current_floor = 1 ∨ m.current_floor = 4 then stop_motor m else m

/-- The at-most-one event per source that a single WDT tick polls
(`P2IN & LIMIT_EN`, `P2IN & ELEV_EN`, `P1IN & TOWER_EN`), each carrying
its decoded address when present. -/
structure TickInputs : Type where
  limit : Option Nat
  elev : Option Nat
  tower : Option Nat
deriving DecidableEq, Repr

/-- The `switch (state)` statement at the end of the C
`WDT_interval_handler`, factored out: the transition table evaluated
against the current snapshot of the state variables. -/
def state_switch (m : Machine) : Machine :=
  if m.state = 'i' then
    if m.current_floor = 1 then { (stop_motor m) with state := 'x' }
    else go_down m
  else if m.state = 'x' then stop_motor m
  else if m.state = '^' then
    if m.called_floor = m.current_floor then { (stop_motor m) with state := 'w' }
    else go_up m
  else if m.state = 'v' then
    if m.called_floor = m.current_floor then { (stop_motor m) with state := 'w' }
    else go_down m
  else if m.state = 'w' then stop_motor m
  else if m.state = 'u' then
    if m.destination = m.current_floor then { (stop_motor m) with state := 'x' }
    else go_up m
  else if m.state = 'd' then
    if m.destination = m.current_floor then { (stop_motor m) with state := 'x' }
    else go_down m
  else m

/-- C `WDT_interval_handler`: polls the limit switches, then the
in-elevator buttons, then the tower buttons, then runs the state-machine
`switch (state)`.  Faithful to the statement order of the C handler. -/
def WDT_interval_handler (m : Machine) (inp : TickInputs) : Machine :=
  let m := match inp.limit with
    | some a => handle_limit_switch m a
    | none => m
  let m := match inp.elev with
    | some a => handle_elev_button m a
    | none => m
  let m := match inp.tower with
    | some a => handle_tower_button m a
    | none => m
  state_switch m

/-- A tick on which no sensor or button event fired. -/
def noEvents : TickInputs := ⟨none, none, none⟩

/-- `n` consecutive ticks with no events. -/
def quietTicks (m : Machine) : Nat → Machine
  | 0 => m
  | n + 1 => quietTicks (WDT_interval_handler m noEvents) n

/-- Run one tick per listed position reading: each tick carries exactly a
limit-switch event for the given floor (address `floor - 1`) and no
button events. -/
def runPositions (m : Machine) : List Nat → Machine
  | [] => m
  | p :: rest => runPositions (WDT_interval_handler m ⟨some (p - 1), none, none⟩) rest

/-- The floor readings `c+1, c+2, ..., c+k` of a car walking up from
floor `c`, one floor per tick. -/
def ascendFrom (c : Nat) : Nat → List Nat
  | 0 => []
  | k + 1 => (c + 1) :: ascendFrom (c + 1) k

/-- The floor readings `t+k-1, ..., t+1, t` of a car walking down to
floor `t` from floor `t+k`, one floor per tick. -/
def descendTo (t : Nat) : Nat → List Nat
  | 0 => []
  | k + 1 => (t + k) :: descendTo t k

/-- The (floor, direction) decoding of the six tower-button address codes
of `main.c`: the floor each case stores in `called_floor` and the
direction it stores in `dest_direction`. -/
def towerDecode (addr : Nat) : Option (Nat × Char) :=
  if addr = F1_UP then some (1, 'u')
  else if addr = F2_DN then some (2, 'd')
  else if addr = F2_UP then some (2, 'u')
  else if addr = F3_DN then some (3, 'd')
  else if addr = F3_UP then some (3, 'u')
  else if addr = F4_DN then some (4, 'd')
  else none

/-- The position-reading sequence of the convergence scenario: walking
one floor per tick toward the target — upward floor readings when moving
up ('^' or 'u'), else downward readings ending at the target `t`. -/
def convergenceRun (m : Machine) (t k : Nat) : List Nat :=
  if m.state = '^' ∨ m.state = 'u' then ascendFrom m.current_floor k
  else descendTo t k

/-- An event-free tick taken in 'x' or 'w' only restates the stop
command: the whole record is unchanged except that the motor is
commanded Hold. -/
theorem quiet_tick_eq (m : Machine) (h : m.state = 'x' ∨ m.state = 'w') :
    WDT_interval_handler m noEvents = { m with motor := Intent.hold } := by
  rcases h with h | h <;>
    simp [WDT_interval_handler, state_switch, noEvents, stop_motor, h]

/-- Claim C1 is false as stated: a tick whose position event reports
floor 4 can end with the motor commanded Up.  Concretely, a car in
state '^' with `called_floor = 2` that overshoots to floor 4 has
`handle_limit_switch` stop the motor, but the state-machine switch later
in the same tick sees `called_floor ≠ current_floor` and calls `go_up`,
so the intent in effect at the end of the tick is Up, not Hold. -/
theorem c1_counterexample :
    (WDT_interval_handler ⟨'^', 3, 2, 0, 'u', Intent.hold⟩ ⟨some 3, none, none⟩).motor
        = Intent.up
      ∧ Intent.up ≠ Intent.hold := by
  decide

/-- Claim C1 (amended): when the position event reports the bottommost
floor (address 0, floor 1) or the topmost floor (address 3, floor 4),
`handle_limit_switch` itself commands Hold at the moment the event is
handled; the state-machine evaluation later in the same tick may
subsequently override that command, so the Hold is only guaranteed at
event-handling time, not at the end of the tick. -/
theorem c1_limit_interlock (m : Machine) (addr : Nat) (h : addr = 0 ∨ addr = 3) :
    (handle_limit_switch m addr).motor = Intent.hold := by
  rcases h with h | h <;> subst h <;>
    simp [handle_limit_switch, stop_motor]

theorem c1_limit_interlock_witness :
    (handle_limit_switch ⟨'^', 2, 3, 0, 'u', Intent.up⟩ 3).motor = Intent.hold :=
  c1_limit_interlock ⟨'^', 2, 3, 0, 'u', Intent.up⟩ 3 (Or.inr rfl)

/-- Claim C2 is false as stated: a destination selection received in a
state other than 'w' does change a state variable.  Concretely, in state
'x' with a stored destination of 2, selecting floor 3 (address 2)
overwrites the stored destination with 3. -/
theorem c2_counterexample :
    (handle_elev_button ⟨'x', 1, 0, 2, 'u', Intent.hold⟩ 2).destination = 3
      ∧ (3 : Nat) ≠ 2 := by
  decide

/-- Claim C2 (amended): in every state other than 'w' a destination
selection leaves the state, current floor, called floor, stored call
direction and motor command unchanged, but it does overwrite the stored
destination with the selected floor (`addr + 1`), because the C handler
assigns `destination` before checking the state. -/
theorem c2_selection_ignored (m : Machine) (addr : Nat) (h : m.state ≠ 'w') :
    (handle_elev_button m addr).state = m.state
      ∧ (handle_elev_button m addr).current_floor = m.current_floor
      ∧ (handle_elev_button m addr).called_floor = m.called_floor
      ∧ (handle_elev_button m addr).dest_direction = m.dest_direction
      ∧ (handle_elev_button m addr).motor = m.motor
      ∧ (handle_elev_button m addr).destination = addr + 1 := by
  simp [handle_elev_button, h]

theorem c2_selection_ignored_witness :
    (handle_elev_button ⟨'x', 1, 0, 2, 'u', Intent.hold⟩ 2).state = 'x'
      ∧ (handle_elev_button ⟨'x', 1, 0, 2, 'u', Intent.hold⟩ 2).current_floor = 1
      ∧ (handle_elev_button ⟨'x', 1, 0, 2, 'u', Intent.hold⟩ 2).called_floor = 0
      ∧ (handle_elev_button ⟨'x', 1, 0, 2, 'u', Intent.hold⟩ 2).dest_direction = 'u'
      ∧ (handle_elev_button ⟨'x', 1, 0, 2, 'u', Intent.hold⟩ 2).motor = Intent.hold
      ∧ (handle_elev_button ⟨'x', 1, 0, 2, 'u', Intent.hold⟩ 2).destination = 2 + 1 :=
  c2_selection_ignored ⟨'x', 1, 0, 2, 'u', Intent.hold⟩ 2 (by decide)

/-- Claim C3 is false as stated: on the arrival tick the machine does
transition 'u' → 'x' and command Hold, but neither `called_floor` nor
`destination` is cleared — both retain their stale values (here 2 and 3;
in particular neither returns to the power-on value 0). -/
theorem c3_counterexample :
    (WDT_interval_handler ⟨'u', 3, 2, 3, 'u', Intent.up⟩ noEvents).state = 'x'
      ∧ (WDT_interval_handler ⟨'u', 3, 2, 3, 'u', Intent.up⟩ noEvents).motor = Intent.hold
      ∧ (WDT_interval_handler ⟨'u', 3, 2, 3, 'u', Intent.up⟩ noEvents).called_floor = 2
      ∧ (WDT_interval_handler ⟨'u', 3, 2, 3, 'u', Intent.up⟩ noEvents).destination = 3
      ∧ (WDT_interval_handler ⟨'u', 3, 2, 3, 'u', Intent.up⟩ noEvents).called_floor ≠ 0
      ∧ (WDT_interval_handler ⟨'u', 3, 2, 3, 'u', Intent.up⟩ noEvents).destination ≠ 0 := by
  decide

/-- Claim C3 (amended): an event-free tick taken in state 'u' or 'd'
with `current_floor = destination` transitions to 'x' and commands Hold;
with `current_floor ≠ destination` it stays in the same state and
commands Up (respectively Down).  In both cases `called_floor` and
`destination` are left unchanged — the code has no clearing step, the
stale values simply persist. -/
theorem c3_destination_arrival (m : Machine) (hs : m.state = 'u' ∨ m.state = 'd') :
    (WDT_interval_handler m noEvents).state
        = (if m.destination = m.current_floor then 'x' else m.state)
      ∧ (WDT_interval_handler m noEvents).motor
        = (if m.destination = m.current_floor then Intent.hold
           else if m.state = 'u' then Intent.up else Intent.down)
      ∧ (WDT_interval_handler m noEvents).current_floor = m.current_floor
      ∧ (WDT_interval_handler m noEvents).called_floor = m.called_floor
      ∧ (WDT_interval_handler m noEvents).destination = m.destination
      ∧ (WDT_interval_handler m noEvents).dest_direction = m.dest_direction := by
  rcases hs with h | h <;>
    simp [WDT_interval_handler, state_switch, noEvents, stop_motor, go_up, go_down, h] <;>
    split_ifs <;> simp_all

theorem c3_destination_arrival_witness :
    (WDT_interval_handler ⟨'u', 3, 2, 3, 'u', Intent.up⟩ noEvents).state
        = (if (3 : Nat) = 3 then 'x' else 'u')
      ∧ (WDT_interval_handler ⟨'u', 3, 2, 3, 'u', Intent.up⟩ noEvents).motor
        = (if (3 : Nat) = 3 then Intent.hold
           else if 'u' = 'u' then Intent.up else Intent.down)
      ∧ (WDT_interval_handler ⟨'u', 3, 2, 3, 'u', Intent.up⟩ noEvents).current_floor = 3
      ∧ (WDT_interval_handler ⟨'u', 3, 2, 3, 'u', Intent.up⟩ noEvents).called_floor = 2
      ∧ (WDT_interval_handler ⟨'u', 3, 2, 3, 'u', Intent.up⟩ noEvents).destination = 3
      ∧ (WDT_interval_handler ⟨'u', 3, 2, 3, 'u', Intent.up⟩ noEvents).dest_direction = 'u' :=
  c3_destination_arrival ⟨'u', 3, 2, 3, 'u', Intent.up⟩ (Or.inl rfl)

/-- Claim C4: a tower call received in any state other than 'x' is
rejected silently — the entire machine record, in particular the state,
`called_floor`, `dest_direction`, `destination` and the motor command,
is unchanged. -/
theorem c4_call_rejected (m : Machine) (addr : Nat) (h : m.state ≠ 'x') :
    handle_tower_button m addr = m := by
  simp [handle_tower_button, h]

theorem c4_call_rejected_witness :
    handle_tower_button ⟨'^', 2, 3, 0, 'u', Intent.up⟩ 7
      = ⟨'^', 2, 3, 0, 'u', Intent.up⟩ :=
  c4_call_rejected ⟨'^', 2, 3, 0, 'u', Intent.up⟩ 7 (by decide)

/-- Claim C5: from state 'w', selecting the current floor leaves the
state 'w'; the selection moves the machine into a destination state
('u' or 'd') exactly when the stored call direction is 'u' and the
selected floor `addr + 1` is strictly above the current floor, or the
direction is 'd' and the selected floor is strictly below it — in which
case the state becomes 'u' (respectively 'd') with the destination set
to the selected floor; every other selection leaves the state 'w'. -/
theorem c5_selection_direction_consistency (m : Machine) (addr : Nat)
    (h : m.state = 'w') :
    (addr + 1 = m.current_floor → (handle_elev_button m addr).state = 'w')
      ∧ (((handle_elev_button m addr).state = 'u'
            ∨ (handle_elev_button m addr).state = 'd')
          ↔ ((m.dest_direction = 'u' ∧ addr + 1 > m.current_floor)
             ∨ (m.dest_direction = 'd' ∧ addr + 1 < m.current_floor)))
      ∧ ((m.dest_direction = 'u' ∧ addr + 1 > m.current_floor) →
          (handle_elev_button m addr).state = 'u'
            ∧ (handle_elev_button m addr).destination = addr + 1)
      ∧ ((m.dest_direction = 'd' ∧ addr + 1 < m.current_floor) →
          (handle_elev_button m addr).state = 'd'
            ∧ (handle_elev_button m addr).destination = addr + 1)
      ∧ (¬((m.dest_direction = 'u' ∧ addr + 1 > m.current_floor)
           ∨ (m.dest_direction = 'd' ∧ addr + 1 < m.current_floor)) →
          (handle_elev_button m addr).state = 'w') := by
  simp only [handle_elev_button, h]
  split_ifs with h1 h2 h3 <;> simp_all

theorem c5_selection_direction_consistency_witness :
    ((3 : Nat) + 1 = 3 → (handle_elev_button ⟨'w', 3, 3, 0, 'u', Intent.hold⟩ 3).state = 'w')
      ∧ (((handle_elev_button ⟨'w', 3, 3, 0, 'u', Intent.hold⟩ 3).state = 'u'
            ∨ (handle_elev_button ⟨'w', 3, 3, 0, 'u', Intent.hold⟩ 3).state = 'd')
          ↔ (('u' = 'u' ∧ (3 : Nat) + 1 > 3) ∨ ('u' = 'd' ∧ (3 : Nat) + 1 < 3)))
      ∧ (('u' = 'u' ∧ (3 : Nat) + 1 > 3) →
          (handle_elev_button ⟨'w', 3, 3, 0, 'u', Intent.hold⟩ 3).state = 'u'
            ∧ (handle_elev_button ⟨'w', 3, 3, 0, 'u', Intent.hold⟩ 3).destination = 3 + 1)
      ∧ (('u' = 'd' ∧ (3 : Nat) + 1 < 3) →
          (handle_elev_button ⟨'w', 3, 3, 0, 'u', Intent.hold⟩ 3).state = 'd'
            ∧ (handle_elev_button ⟨'w', 3, 3, 0, 'u', Intent.hold⟩ 3).destination = 3 + 1)
      ∧ (¬(('u' = 'u' ∧ (3 : Nat) + 1 > 3) ∨ ('u' = 'd' ∧ (3 : Nat) + 1 < 3)) →
          (handle_elev_button ⟨'w', 3, 3, 0, 'u', Intent.hold⟩ 3).state = 'w') :=
  c5_selection_direction_consistency ⟨'w', 3, 3, 0, 'u', Intent.hold⟩ 3 rfl

/-- Claim C6: a tower call honored in state 'x' stores the button's
floor in `called_floor` and its direction in `dest_direction`, and
transitions to 'w' when the requested floor equals the current floor,
to '^' when it is strictly above, and to 'v' otherwise (current floor
in the serviceable range 1..4). -/
theorem c6_call_accepted (m : Machine) (addr f : Nat) (dir : Char)
    (hs : m.state = 'x') (hd : towerDecode addr = some (f, dir))
    (h1 : 1 ≤ m.current_floor) (h4 : m.current_floor ≤ 4) :
    (handle_tower_button m addr).called_floor = f
      ∧ (handle_tower_button m addr).dest_direction = dir
      ∧ (handle_tower_button m addr).state
        = (if f = m.current_floor then 'w'
           else if f > m.current_floor then '^' else 'v') := by
  obtain ⟨st, cf, caf, de, dd, mo⟩ := m
  simp only at hs h1 h4 ⊢
  subst hs
  unfold towerDecode at hd
  split_ifs at hd with a1 a2 a3 a4 a5 a6 <;>
    simp only [Option.some.injEq, Prod.mk.injEq] at hd
  all_goals obtain ⟨rfl, rfl⟩ := hd
  all_goals subst_vars
  all_goals interval_cases cf <;>
    simp [handle_tower_button, go_up, go_down, F1_UP, F2_DN, F2_UP, F3_DN, F3_UP, F4_DN]

theorem c6_call_accepted_witness :
    (handle_tower_button ⟨'x', 1, 0, 0, 'u', Intent.hold⟩ 3).called_floor = 3
      ∧ (handle_tower_button ⟨'x', 1, 0, 0, 'u', Intent.hold⟩ 3).dest_direction = 'u'
      ∧ (handle_tower_button ⟨'x', 1, 0, 0, 'u', Intent.hold⟩ 3).state
        = (if (3 : Nat) = 1 then 'w' else if (3 : Nat) > 1 then '^' else 'v') :=
  c6_call_accepted ⟨'x', 1, 0, 0, 'u', Intent.hold⟩ 3 3 'u' rfl (by decide)
    (by decide) (by decide)

/-- The transition table's row for state '^': arrive (state 'w', Hold)
when the called floor is reached, else keep climbing. -/
theorem switch_upcall (m : Machine) (hs : m.state = '^') :
    state_switch m
      = if m.called_floor = m.current_floor
        then { m with motor := Intent.hold, state := 'w' }
        else { m with motor := Intent.up } := by
  simp only [state_switch, stop_motor, go_up, hs, Char.reduceEq, reduceIte]

/-- The transition table's row for state 'v': arrive (state 'w', Hold)
when the called floor is reached, else keep descending. -/
theorem switch_downcall (m : Machine) (hs : m.state = 'v') :
    state_switch m
      = if m.called_floor = m.current_floor
        then { m with motor := Intent.hold, state := 'w' }
        else { m with motor := Intent.down } := by
  simp only [state_switch, stop_motor, go_down, hs, Char.reduceEq, reduceIte]

/-- The transition table's row for state 'u': arrive (state 'x', Hold)
when the destination is reached, else keep climbing. -/
theorem switch_updest (m : Machine) (hs : m.state = 'u') :
    state_switch m
      = if m.destination = m.current_floor
        then { m with motor := Intent.hold, state := 'x' }
        else { m with motor := Intent.up } := by
  simp only [state_switch, stop_motor, go_up, hs, Char.reduceEq, reduceIte]

/-- The transition table's row for state 'd': arrive (state 'x', Hold)
when the destination is reached, else keep descending. -/
theorem switch_downdest (m : Machine) (hs : m.state = 'd') :
    state_switch m
      = if m.destination = m.current_floor
        then { m with motor := Intent.hold, state := 'x' }
        else { m with motor := Intent.down } := by
  simp only [state_switch, stop_motor, go_down, hs, Char.reduceEq, reduceIte]

/-- `handle_limit_switch` for a decoded floor `p ≥ 1`: records the floor
and stops the motor exactly at the structural limits. -/
theorem limit_record (m : Machine) (p : Nat) (hp : 1 ≤ p) :
    handle_limit_switch m (p - 1)
      = if p = 1 ∨ p = 4
        then { m with current_floor := p, motor := Intent.hold }
        else { m with current_floor := p } := by
  have hp1 : p - 1 + 1 = p := Nat.succ_pred_eq_of_pos hp
  simp only [handle_limit_switch, stop_motor, hp1]

/-- Single tick in state '^' carrying only a position event for floor
`p`: the floor is recorded, and the tick arrives (state 'w', motor Hold)
exactly when `p` is the called floor, else keeps climbing. -/
theorem tick_pos_upcall (m : Machine) (p : Nat) (hs : m.state = '^') (hp : 1 ≤ p) :
    WDT_interval_handler m ⟨some (p - 1), none, none⟩
      = if m.called_floor = p
        then { m with current_floor := p, motor := Intent.hold, state := 'w' }
        else { m with current_floor := p, motor := Intent.up } := by
  have h0 : WDT_interval_handler m ⟨some (p - 1), none, none⟩
      = state_switch (handle_limit_switch m (p - 1)) := rfl
  rw [h0, limit_record m p hp]
  by_cases hl : p = 1 ∨ p = 4
  · rw [if_pos hl, switch_upcall { m with current_floor := p, motor := Intent.hold } hs]
  · rw [if_neg hl, switch_upcall { m with current_floor := p } hs]

/-- Single tick in state 'v' carrying only a position event for floor
`p`: arrives (state 'w', motor Hold) exactly when `p` is the called
floor, else keeps descending. -/
theorem tick_pos_downcall (m : Machine) (p : Nat) (hs : m.state = 'v') (hp : 1 ≤ p) :
    WDT_interval_handler m ⟨some (p - 1), none, none⟩
      = if m.called_floor = p
        then { m with current_floor := p, motor := Intent.hold, state := 'w' }
        else { m with current_floor := p, motor := Intent.down } := by
  have h0 : WDT_interval_handler m ⟨some (p - 1), none, none⟩
      = state_switch (handle_limit_switch m (p - 1)) := rfl
  rw [h0, limit_record m p hp]
  by_cases hl : p = 1 ∨ p = 4
  · rw [if_pos hl, switch_downcall { m with current_floor := p, motor := Intent.hold } hs]
  · rw [if_neg hl, switch_downcall { m with current_floor := p } hs]

/-- Single tick in state 'u' carrying only a position event for floor
`p`: arrives (state 'x', motor Hold) exactly when `p` is the stored
destination, else keeps climbing. -/
theorem tick_pos_updest (m : Machine) (p : Nat) (hs : m.state = 'u') (hp : 1 ≤ p) :
    WDT_interval_handler m ⟨some (p - 1), none, none⟩
      = if m.destination = p
        then { m with current_floor := p, motor := Intent.hold, state := 'x' }
        else { m with current_floor := p, motor := Intent.up } := by
  have h0 : WDT_interval_handler m ⟨some (p - 1), none, none⟩
      = state_switch (handle_limit_switch m (p - 1)) := rfl
  rw [h0, limit_record m p hp]
  by_cases hl : p = 1 ∨ p = 4
  · rw [if_pos hl, switch_updest { m with current_floor := p, motor := Intent.hold } hs]
  · rw [if_neg hl, switch_updest { m with current_floor := p } hs]

/-- Single tick in state 'd' carrying only a position event for floor
`p`: arrives (state 'x', motor Hold) exactly when `p` is the stored
destination, else keeps descending. -/
theorem tick_pos_downdest (m : Machine) (p : Nat) (hs : m.state = 'd') (hp : 1 ≤ p) :
    WDT_interval_handler m ⟨some (p - 1), none, none⟩
      = if m.destination = p
        then { m with current_floor := p, motor := Intent.hold, state := 'x' }
        else { m with current_floor := p, motor := Intent.down } := by
  have h0 : WDT_interval_handler m ⟨some (p - 1), none, none⟩
      = state_switch (handle_limit_switch m (p - 1)) := rfl
  rw [h0, limit_record m p hp]
  by_cases hl : p = 1 ∨ p = 4
  · rw [if_pos hl, switch_downdest { m with current_floor := p, motor := Intent.hold } hs]
  · rw [if_neg hl, switch_downdest { m with current_floor := p } hs]

/-- Claim C7: the position event is applied before the transition table
is evaluated — a tick whose position event reports the target floor of
the current motion (the called floor in '^'/'v', the destination in
'u'/'d') transitions on the new position, whatever stale value
`current_floor` held before: the tick ends in 'w' (respectively 'x')
with the updated floor and a Hold command. -/
theorem c7_position_applied_first (m : Machine) (addr : Nat)
    (h : ((m.state = '^' ∨ m.state = 'v') ∧ m.called_floor = addr + 1)
       ∨ ((m.state = 'u' ∨ m.state = 'd') ∧ m.destination = addr + 1)) :
    (WDT_interval_handler m ⟨some addr, none, none⟩).current_floor = addr + 1
      ∧ (WDT_interval_handler m ⟨some addr, none, none⟩).motor = Intent.hold
      ∧ (WDT_interval_handler m ⟨some addr, none, none⟩).state
        = (if m.state = '^' ∨ m.state = 'v' then 'w' else 'x') := by
  rcases h with ⟨hs | hs, ht⟩ | ⟨hs | hs, ht⟩
  · have hstep := tick_pos_upcall m (addr + 1) hs (Nat.le_add_left 1 addr)
    simp only [Nat.add_sub_cancel, if_pos ht] at hstep
    rw [hstep]
    simp [hs]
  · have hstep := tick_pos_downcall m (addr + 1) hs (Nat.le_add_left 1 addr)
    simp only [Nat.add_sub_cancel, if_pos ht] at hstep
    rw [hstep]
    simp [hs]
  · have hstep := tick_pos_updest m (addr + 1) hs (Nat.le_add_left 1 addr)
    simp only [Nat.add_sub_cancel, if_pos ht] at hstep
    rw [hstep]
    simp [hs]
  · have hstep := tick_pos_downdest m (addr + 1) hs (Nat.le_add_left 1 addr)
    simp only [Nat.add_sub_cancel, if_pos ht] at hstep
    rw [hstep]
    simp [hs]

theorem c7_position_applied_first_witness :
    (WDT_interval_handler ⟨'^', 1, 3, 0, 'u', Intent.up⟩ ⟨some 2, none, none⟩).current_floor
        = 2 + 1
      ∧ (WDT_interval_handler ⟨'^', 1, 3, 0, 'u', Intent.up⟩ ⟨some 2, none, none⟩).motor
        = Intent.hold
      ∧ (WDT_interval_handler ⟨'^', 1, 3, 0, 'u', Intent.up⟩ ⟨some 2, none, none⟩).state
        = (if '^' = '^' ∨ '^' = 'v' then 'w' else 'x') :=
  c7_position_applied_first ⟨'^', 1, 3, 0, 'u', Intent.up⟩ 2
    (Or.inl ⟨Or.inl rfl, rfl⟩)

/-- Claim C8: from 'x' or 'w', any number of consecutive event-free
ticks leaves the state, current floor, called floor, destination and
call direction unchanged, and every one of those ticks ends with the
motor commanded Hold. -/
theorem c8_hold_idempotent (m : Machine) (n : Nat)
    (h : m.state = 'x' ∨ m.state = 'w') :
    (quietTicks m n).state = m.state
      ∧ (quietTicks m n).current_floor = m.current_floor
      ∧ (quietTicks m n).called_floor = m.called_floor
      ∧ (quietTicks m n).destination = m.destination
      ∧ (quietTicks m n).dest_direction = m.dest_direction
      ∧ ∀ k, k < n → (quietTicks m (k + 1)).motor = Intent.hold := by
  induction n generalizing m with
  | zero =>
      exact ⟨rfl, rfl, rfl, rfl, rfl, fun k hk => absurd hk (Nat.not_lt_zero k)⟩
  | succ n ih =>
      have hstep : WDT_interval_handler m noEvents = { m with motor := Intent.hold } :=
        quiet_tick_eq m h
      have hstate : ({ m with motor := Intent.hold } : Machine).state = m.state := rfl
      have ih2 := ih { m with motor := Intent.hold } (by simpa using h)
      have hrw : quietTicks m (n + 1) = quietTicks { m with motor := Intent.hold } n := by
        simp [quietTicks, hstep]
      refine ⟨?_, ?_, ?_, ?_, ?_, ?_⟩
      · rw [hrw]; exact ih2.1
      · rw [hrw]; exact ih2.2.1
      · rw [hrw]; exact ih2.2.2.1
      · rw [hrw]; exact ih2.2.2.2.1
      · rw [hrw]; exact ih2.2.2.2.2.1
      · intro k hk
        have hrwk : quietTicks m (k + 1) = quietTicks { m with motor := Intent.hold } k := by
          simp [quietTicks, hstep]
        rw [hrwk]
        match k with
        | 0 => rfl
        | k + 1 => exact ih2.2.2.2.2.2 k (by omega)

theorem c8_hold_idempotent_witness :
    (quietTicks ⟨'w', 2, 2, 0, 'u', Intent.hold⟩ 3).state = 'w'
      ∧ (quietTicks ⟨'w', 2, 2, 0, 'u', Intent.hold⟩ 3).current_floor = 2
      ∧ (quietTicks ⟨'w', 2, 2, 0, 'u', Intent.hold⟩ 3).called_floor = 2
      ∧ (quietTicks ⟨'w', 2, 2, 0, 'u', Intent.hold⟩ 3).destination = 0
      ∧ (quietTicks ⟨'w', 2, 2, 0, 'u', Intent.hold⟩ 3).dest_direction = 'u'
      ∧ ∀ k, k < 3 → (quietTicks ⟨'w', 2, 2, 0, 'u', Intent.hold⟩ (k + 1)).motor
        = Intent.hold :=
  c8_hold_idempotent ⟨'w', 2, 2, 0, 'u', Intent.hold⟩ 3 (Or.inr rfl)

/-- Claim C10: `handle_elev_button` overwrites the stored destination
with the selected floor in every state (the assignment precedes the
state check); in particular a selection made while in 'u' or 'd' keeps
the state but changes the target that the tick's transition evaluation
compares `current_floor` against, so the car is retargeted without a
state transition (the tick keeps moving toward the new floor). -/
theorem c10_destination_overwrite (m : Machine) (addr : Nat)
    (hs : m.state = 'u' ∨ m.state = 'd') (hne : addr + 1 ≠ m.current_floor) :
    (∀ m2 : Machine, ∀ a : Nat, (handle_elev_button m2 a).destination = a + 1)
      ∧ (handle_elev_button m addr).state = m.state
      ∧ (WDT_interval_handler m ⟨none, some addr, none⟩).state = m.state
      ∧ (WDT_interval_handler m ⟨none, some addr, none⟩).destination = addr + 1
      ∧ (WDT_interval_handler m ⟨none, some addr, none⟩).motor
        = (if m.state = 'u' then Intent.up else Intent.down) := by
  refine ⟨fun m2 a => ?_, ?_⟩
  · simp only [handle_elev_button]
    split_ifs <;> rfl
  · rcases hs with h | h <;>
      simp [WDT_interval_handler, state_switch, handle_elev_button, go_up, go_down, h, hne]

theorem c10_destination_overwrite_witness :
    (∀ m2 : Machine, ∀ a : Nat, (handle_elev_button m2 a).destination = a + 1)
      ∧ (handle_elev_button ⟨'u', 1, 3, 3, 'u', Intent.up⟩ 3).state = 'u'
      ∧ (WDT_interval_handler ⟨'u', 1, 3, 3, 'u', Intent.up⟩ ⟨none, some 3, none⟩).state = 'u'
      ∧ (WDT_interval_handler ⟨'u', 1, 3, 3, 'u', Intent.up⟩ ⟨none, some 3, none⟩).destination
        = 3 + 1
      ∧ (WDT_interval_handler ⟨'u', 1, 3, 3, 'u', Intent.up⟩ ⟨none, some 3, none⟩).motor
        = (if 'u' = 'u' then Intent.up else Intent.down) :=
  c10_destination_overwrite ⟨'u', 1, 3, 3, 'u', Intent.up⟩ 3 (Or.inl rfl) (by decide)

/-- Walking up one floor per tick from the current floor, a car in '^'
whose called floor is `k` floors above arrives in exactly `k` ticks:
after the `k` ticks it is in 'w' at the called floor with motor Hold,
and after any fewer ticks it is still in '^'. -/
theorem upcall_reaches : ∀ k : Nat, ∀ m : Machine, m.state = '^' →
    m.called_floor = m.current_floor + k → 0 < k →
    (runPositions m (ascendFrom m.current_floor k)).state = 'w'
      ∧ (runPositions m (ascendFrom m.current_floor k)).current_floor
        = m.current_floor + k
      ∧ (runPositions m (ascendFrom m.current_floor k)).motor = Intent.hold
      ∧ ∀ j, j < k →
        (runPositions m (List.take j (ascendFrom m.current_floor k))).state = '^' := by
  intro k
  induction k with
  | zero => intro m _ _ hk; exact absurd hk (by omega)
  | succ k ih =>
      intro m hs hcall _
      obtain ⟨st, cf, caf, de, dd, mo⟩ := m
      simp only at hs hcall ⊢
      subst hs
      have hstep := tick_pos_upcall ⟨'^', cf, caf, de, dd, mo⟩ (cf + 1) rfl (by omega)
      simp only at hstep
      by_cases hk0 : k = 0
      · subst hk0
        have harr : caf = cf + 1 := by omega
        rw [if_pos harr] at hstep
        refine ⟨?_, ?_, ?_, ?_⟩
        · simp only [ascendFrom, runPositions, hstep]
        · simp only [ascendFrom, runPositions, hstep]
        · simp only [ascendFrom, runPositions, hstep]
        · intro j hj
          interval_cases j
          rfl
      · have hne : ¬ caf = cf + 1 := by omega
        rw [if_neg hne] at hstep
        have ih1 := ih ⟨'^', cf + 1, caf, de, dd, Intent.up⟩ rfl (by simp only; omega)
          (by omega)
        simp only at ih1
        have hrw : runPositions ⟨'^', cf, caf, de, dd, mo⟩ (ascendFrom cf (k + 1))
            = runPositions ⟨'^', cf + 1, caf, de, dd, Intent.up⟩
                (ascendFrom (cf + 1) k) := by
          simp only [ascendFrom, runPositions, hstep]
        refine ⟨?_, ?_, ?_, ?_⟩
        · rw [hrw]; exact ih1.1
        · rw [hrw, ih1.2.1]; omega
        · rw [hrw]; exact ih1.2.2.1
        · intro j hj
          match j with
          | 0 => rfl
          | j + 1 =>
              have htake : List.take (j + 1) (ascendFrom cf (k + 1))
                  = (cf + 1) :: List.take j (ascendFrom (cf + 1) k) := by
                simp only [ascendFrom, List.take_succ_cons]
              rw [htake]
              have hrun : runPositions ⟨'^', cf, caf, de, dd, mo⟩
                    ((cf + 1) :: List.take j (ascendFrom (cf + 1) k))
                  = runPositions ⟨'^', cf + 1, caf, de, dd, Intent.up⟩
                      (List.take j (ascendFrom (cf + 1) k)) := by
                simp only [runPositions, hstep]
              rw [hrun]
              exact ih1.2.2.2 j (by omega)

/-- Walking down one floor per tick, a car in 'v' whose called floor is
`k` floors below arrives in exactly `k` ticks (then 'w', Hold); any
proper prefix of the walk leaves it in 'v'. -/
theorem downcall_reaches : ∀ k t : Nat, ∀ m : Machine, m.state = 'v' →
    m.called_floor = t → m.current_floor = t + k → 1 ≤ t → 0 < k →
    (runPositions m (descendTo t k)).state = 'w'
      ∧ (runPositions m (descendTo t k)).current_floor = t
      ∧ (runPositions m (descendTo t k)).motor = Intent.hold
      ∧ ∀ j, j < k →
        (runPositions m (List.take j (descendTo t k))).state = 'v' := by
  intro k
  induction k with
  | zero => intro t m _ _ _ _ hk; exact absurd hk (by omega)
  | succ k ih =>
      intro t m hs hcall hc ht _
      obtain ⟨st, cf, caf, de, dd, mo⟩ := m
      simp only at hs hcall hc ⊢
      subst hs
      have hstep := tick_pos_downcall ⟨'v', cf, caf, de, dd, mo⟩ (t + k) rfl (by omega)
      simp only at hstep
      by_cases hk0 : k = 0
      · subst hk0
        have harr : caf = t + 0 := by omega
        rw [if_pos harr] at hstep
        refine ⟨?_, ?_, ?_, ?_⟩
        · simp only [descendTo, runPositions, hstep]
        · simp only [descendTo, runPositions, hstep]
          omega
        · simp only [descendTo, runPositions, hstep]
        · intro j hj
          interval_cases j
          rfl
      · have hne : ¬ caf = t + k := by omega
        rw [if_neg hne] at hstep
        have ih1 := ih t ⟨'v', t + k, caf, de, dd, Intent.down⟩ rfl hcall rfl ht (by omega)
        simp only at ih1
        have hrw : runPositions ⟨'v', cf, caf, de, dd, mo⟩ (descendTo t (k + 1))
            = runPositions ⟨'v', t + k, caf, de, dd, Intent.down⟩ (descendTo t k) := by
          simp only [descendTo, runPositions, hstep]
        refine ⟨?_, ?_, ?_, ?_⟩
        · rw [hrw]; exact ih1.1
        · rw [hrw]; exact ih1.2.1
        · rw [hrw]; exact ih1.2.2.1
        · intro j hj
          match j with
          | 0 => rfl
          | j + 1 =>
              have htake : List.take (j + 1) (descendTo t (k + 1))
                  = (t + k) :: List.take j (descendTo t k) := by
                simp only [descendTo, List.take_succ_cons]
              rw [htake]
              have hrun : runPositions ⟨'v', cf, caf, de, dd, mo⟩
                    ((t + k) :: List.take j (descendTo t k))
                  = runPositions ⟨'v', t + k, caf, de, dd, Intent.down⟩
                      (List.take j (descendTo t k)) := by
                simp only [runPositions, hstep]
              rw [hrun]
              exact ih1.2.2.2 j (by omega)

/-- Walking up one floor per tick, a car in 'u' whose destination is
`k` floors above arrives in exactly `k` ticks (then 'x', Hold); any
proper prefix of the walk leaves it in 'u'. -/
theorem updest_reaches : ∀ k : Nat, ∀ m : Machine, m.state = 'u' →
    m.destination = m.current_floor + k → 0 < k →
    (runPositions m (ascendFrom m.current_floor k)).state = 'x'
      ∧ (runPositions m (ascendFrom m.current_floor k)).current_floor
        = m.current_floor + k
      ∧ (runPositions m (ascendFrom m.current_floor k)).motor = Intent.hold
      ∧ ∀ j, j < k →
        (runPositions m (List.take j (ascendFrom m.current_floor k))).state = 'u' := by
  intro k
  induction k with
  | zero => intro m _ _ hk; exact absurd hk (by omega)
  | succ k ih =>
      intro m hs hde _
      obtain ⟨st, cf, caf, de, dd, mo⟩ := m
      simp only at hs hde ⊢
      subst hs
      have hstep := tick_pos_updest ⟨'u', cf, caf, de, dd, mo⟩ (cf + 1) rfl (by omega)
      simp only at hstep
      by_cases hk0 : k = 0
      · subst hk0
        have harr : de = cf + 1 := by omega
        rw [if_pos harr] at hstep
        refine ⟨?_, ?_, ?_, ?_⟩
        · simp only [ascendFrom, runPositions, hstep]
        · simp only [ascendFrom, runPositions, hstep]
        · simp only [ascendFrom, runPositions, hstep]
        · intro j hj
          interval_cases j
          rfl
      · have hne : ¬ de = cf + 1 := by omega
        rw [if_neg hne] at hstep
        have ih1 := ih ⟨'u', cf + 1, caf, de, dd, Intent.up⟩ rfl (by simp only; omega)
          (by omega)
        simp only at ih1
        have hrw : runPositions ⟨'u', cf, caf, de, dd, mo⟩ (ascendFrom cf (k + 1))
            = runPositions ⟨'u', cf + 1, caf, de, dd, Intent.up⟩
                (ascendFrom (cf + 1) k) := by
          simp only [ascendFrom, runPositions, hstep]
        refine ⟨?_, ?_, ?_, ?_⟩
        · rw [hrw]; exact ih1.1
        · rw [hrw, ih1.2.1]; omega
        · rw [hrw]; exact ih1.2.2.1
        · intro j hj
          match j with
          | 0 => rfl
          | j + 1 =>
              have htake : List.take (j + 1) (ascendFrom cf (k + 1))
                  = (cf + 1) :: List.take j (ascendFrom (cf + 1) k) := by
                simp only [ascendFrom, List.take_succ_cons]
              rw [htake]
              have hrun : runPositions ⟨'u', cf, caf, de, dd, mo⟩
                    ((cf + 1) :: List.take j (ascendFrom (cf + 1) k))
                  = runPositions ⟨'u', cf + 1, caf, de, dd, Intent.up⟩
                      (List.take j (ascendFrom (cf + 1) k)) := by
                simp only [runPositions, hstep]
              rw [hrun]
              exact ih1.2.2.2 j (by omega)

/-- Walking down one floor per tick, a car in 'd' whose destination is
`k` floors below arrives in exactly `k` ticks (then 'x', Hold); any
proper prefix of the walk leaves it in 'd'. -/
theorem downdest_reaches : ∀ k t : Nat, ∀ m : Machine, m.state = 'd' →
    m.destination = t → m.current_floor = t + k → 1 ≤ t → 0 < k →
    (runPositions m (descendTo t k)).state = 'x'
      ∧ (runPositions m (descendTo t k)).current_floor = t
      ∧ (runPositions m (descendTo t k)).motor = Intent.hold
      ∧ ∀ j, j < k →
        (runPositions m (List.take j (descendTo t k))).state = 'd' := by
  intro k
  induction k with
  | zero => intro t m _ _ _ _ hk; exact absurd hk (by omega)
  | succ k ih =>
      intro t m hs hde hc ht _
      obtain ⟨st, cf, caf, de, dd, mo⟩ := m
      simp only at hs hde hc ⊢
      subst hs
      have hstep := tick_pos_downdest ⟨'d', cf, caf, de, dd, mo⟩ (t + k) rfl (by omega)
      simp only at hstep
      by_cases hk0 : k = 0
      · subst hk0
        have harr : de = t + 0 := by omega
        rw [if_pos harr] at hstep
        refine ⟨?_, ?_, ?_, ?_⟩
        · simp only [descendTo, runPositions, hstep]
        · simp only [descendTo, runPositions, hstep]
          omega
        · simp only [descendTo, runPositions, hstep]
        · intro j hj
          interval_cases j
          rfl
      · have hne : ¬ de = t + k := by omega
        rw [if_neg hne] at hstep
        have ih1 := ih t ⟨'d', t + k, caf, de, dd, Intent.down⟩ rfl hde rfl ht (by omega)
        simp only at ih1
        have hrw : runPositions ⟨'d', cf, caf, de, dd, mo⟩ (descendTo t (k + 1))
            = runPositions ⟨'d', t + k, caf, de, dd, Intent.down⟩ (descendTo t k) := by
          simp only [descendTo, runPositions, hstep]
        refine ⟨?_, ?_, ?_, ?_⟩
        · rw [hrw]; exact ih1.1
        · rw [hrw]; exact ih1.2.1
        · rw [hrw]; exact ih1.2.2.1
        · intro j hj
          match j with
          | 0 => rfl
          | j + 1 =>
              have htake : List.take (j + 1) (descendTo t (k + 1))
                  = (t + k) :: List.take j (descendTo t k) := by
                simp only [descendTo, List.take_succ_cons]
              rw [htake]
              have hrun : runPositions ⟨'d', cf, caf, de, dd, mo⟩
                    ((t + k) :: List.take j (descendTo t k))
                  = runPositions ⟨'d', t + k, caf, de, dd, Intent.down⟩
                      (List.take j (descendTo t k)) := by
                simp only [runPositions, hstep]
              rw [hrun]
              exact ih1.2.2.2 j (by omega)

/-- Claim C9: from any moving state, fed one position reading per tick
walking the car monotonically one floor at a time toward its target
(the called floor in '^'/'v', the destination in 'u'/'d'), the machine
reaches 'w' (respectively 'x') at the target with motor Hold in exactly
`k` ticks, where `k` is the floor distance from the starting current
floor to the target; after any fewer ticks it is still in its original
moving state. -/
theorem c9_convergence (m : Machine) (t k : Nat) (hk : 0 < k)
    (h : (m.state = '^' ∧ m.called_floor = t ∧ t = m.current_floor + k)
       ∨ (m.state = 'v' ∧ m.called_floor = t ∧ m.current_floor = t + k ∧ 1 ≤ t)
       ∨ (m.state = 'u' ∧ m.destination = t ∧ t = m.current_floor + k)
       ∨ (m.state = 'd' ∧ m.destination = t ∧ m.current_floor = t + k ∧ 1 ≤ t)) :
    (runPositions m (convergenceRun m t k)).state
        = (if m.state = '^' ∨ m.state = 'v' then 'w' else 'x')
      ∧ (runPositions m (convergenceRun m t k)).current_floor = t
      ∧ (runPositions m (convergenceRun m t k)).motor = Intent.hold
      ∧ ∀ j, j < k →
        (runPositions m (List.take j (convergenceRun m t k))).state = m.state := by
  rcases h with ⟨hs, hcall, ht⟩ | ⟨hs, hcall, hc, ht1⟩ | ⟨hs, hde, ht⟩ | ⟨hs, hde, hc, ht1⟩
  · have hrun : convergenceRun m t k = ascendFrom m.current_floor k := by
      simp [convergenceRun, hs]
    have hmain := upcall_reaches k m hs (by omega) hk
    rw [hrun]
    simp only [hs, Char.reduceEq, true_or, if_true]
    refine ⟨hmain.1, ?_, hmain.2.2.1, fun j hj => hmain.2.2.2 j hj⟩
    have := hmain.2.1
    omega
  · have hrun : convergenceRun m t k = descendTo t k := by
      simp [convergenceRun, hs]
    have hmain := downcall_reaches k t m hs hcall hc ht1 hk
    rw [hrun]
    simp only [hs, Char.reduceEq, or_true, false_or, if_true]
    exact ⟨hmain.1, hmain.2.1, hmain.2.2.1, fun j hj => hmain.2.2.2 j hj⟩
  · have hrun : convergenceRun m t k = ascendFrom m.current_floor k := by
      simp [convergenceRun, hs]
    have hmain := updest_reaches k m hs (by omega) hk
    rw [hrun]
    simp only [hs, Char.reduceEq, or_self, if_false]
    refine ⟨hmain.1, ?_, hmain.2.2.1, fun j hj => hmain.2.2.2 j hj⟩
    have := hmain.2.1
    omega
  · have hrun : convergenceRun m t k = descendTo t k := by
      simp [convergenceRun, hs]
    have hmain := downdest_reaches k t m hs hde hc ht1 hk
    rw [hrun]
    simp only [hs, Char.reduceEq, or_self, if_false]
    exact ⟨hmain.1, hmain.2.1, hmain.2.2.1, fun j hj => hmain.2.2.2 j hj⟩

theorem c9_convergence_witness :
    (runPositions ⟨'^', 1, 3, 0, 'u', Intent.up⟩
        (convergenceRun ⟨'^', 1, 3, 0, 'u', Intent.up⟩ 3 2)).state
        = (if ('^' : Char) = '^' ∨ ('^' : Char) = 'v' then 'w' else 'x')
      ∧ (runPositions ⟨'^', 1, 3, 0, 'u', Intent.up⟩
          (convergenceRun ⟨'^', 1, 3, 0, 'u', Intent.up⟩ 3 2)).current_floor = 3
      ∧ (runPositions ⟨'^', 1, 3, 0, 'u', Intent.up⟩
          (convergenceRun ⟨'^', 1, 3, 0, 'u', Intent.up⟩ 3 2)).motor = Intent.hold
      ∧ ∀ j, j < 2 →
        (runPositions ⟨'^', 1, 3, 0, 'u', Intent.up⟩
          (List.take j (convergenceRun ⟨'^', 1, 3, 0, 'u', Intent.up⟩ 3 2))).state = '^' :=
  c9_convergence ⟨'^', 1, 3, 0, 'u', Intent.up⟩ 3 2 (by decide)
    (Or.inl ⟨rfl, rfl, by decide⟩)
